import Mathlib

/-! Verification of the self-absorption correction core of webxraydb-rs
(crates/selfabs). Machine f64 values are modelled by exact rationals;
the transcendental primitives the code calls (exp, expm1, ln, sin, sqrt)
enter as explicit oracle-function parameters, since the properties under
study concern control flow and exact algebra, not the values of those
primitives. Where the source tests is_finite on a value that can be
non-finite at run time, the value is modelled as Option Rat, with none
standing for a non-finite float. A small binary64 rounding model (fl,
fadd, fmul) is used where a property is about bit-level floating-point
sums. -/

set_option allowUnsafeReducibility true in
attribute [semireducible] Rat.add Rat.mul Rat.inv Rat.sub Rat.div Rat.neg Rat.ofScientific

/-- Threshold 1e-10 as written in booth.rs and troger.rs. -/
def eps10 : ℚ := 1 / 10 ^ 10

/-- Threshold 1e-12 as written in booth.rs. -/
def eps12 : ℚ := 1 / 10 ^ 12

/-- Threshold 1e-30 as written in common.rs, fluo.rs and booth.rs. -/
def eps30 : ℚ := 1 / 10 ^ 30

/-- Threshold 1e-300 as written in ameyanagi.rs. -/
def eps300 : ℚ := 1 / 10 ^ 300

/-- Error enumeration from common.rs (SelfAbsError). The xraydb variant
carries the propagated table-lookup message. -/
inductive SelfAbsError where
  | xraydb (msg : String)
  | noEmissionLines (msg : String)
  | invalidFormula (msg : String)
  | insufficientData (msg : String)
deriving DecidableEq

/-- Accumulated least-squares sums, as held in the local mutables of
fit_ln_vs_x and fit_line in common.rs. -/
structure FitSums where
  sx : ℚ
  sy : ℚ
  sxx : ℚ
  sxy : ℚ
  n : ℕ
deriving DecidableEq

/-- One accumulation step of fit_ln_vs_x (common.rs lines 385-395): a point
with non-positive x or y is skipped, otherwise ln of y enters the sums.
The logarithm is the oracle parameter lnQ. -/
def lnStep (lnQ : ℚ → ℚ) (acc : FitSums) (p : ℚ × ℚ) : FitSums :=
  if p.1 ≤ 0 ∨ p.2 ≤ 0 then acc
  else
    { sx := acc.sx + p.1
      sy := acc.sy + lnQ p.2
      sxx := acc.sxx + p.1 * p.1
      sxy := acc.sxy + p.1 * lnQ p.2
      n := acc.n + 1 }

/-- The sums of fit_ln_vs_x over the zipped point list. -/
def lnFitSums (lnQ : ℚ → ℚ) (ps : List (ℚ × ℚ)) : FitSums :=
  ps.foldl (lnStep lnQ) ⟨0, 0, 0, 0, 0⟩

/-- Normal-equations denominator n * sxx - sx * sx shared by both fits. -/
def fitDenom (s : FitSums) : ℚ := (s.n : ℚ) * s.sxx - s.sx * s.sx

/-- Tail of fit_ln_vs_x (common.rs lines 397-409): fewer than 2 accumulated
points or a denominator below 1e-30 in magnitude give (0, 0); otherwise
the least-squares (intercept, slope). -/
def lnFitTail (s : FitSums) : ℚ × ℚ :=
  if s.n < 2 then (0, 0)
  else if |fitDenom s| < eps30 then (0, 0)
  else
    (((s.sy - (((s.n : ℚ) * s.sxy - s.sx * s.sy) / fitDenom s) * s.sx) / (s.n : ℚ)),
      ((s.n : ℚ) * s.sxy - s.sx * s.sy) / fitDenom s)

/-- fit_ln_vs_x from common.rs lines 378-410: least squares of ln y against
x over the points with positive x and y. -/
def fit_ln_vs_x (lnQ : ℚ → ℚ) (x y : List ℚ) : ℚ × ℚ :=
  lnFitTail (lnFitSums lnQ (x.zip y))

/-- One accumulation step of fit_line (common.rs lines 423-432). The source
skips points whose x or y is non-finite; a rational is always finite, so
every point is accumulated in this model. -/
def lineStep (acc : FitSums) (p : ℚ × ℚ) : FitSums :=
  { sx := acc.sx + p.1
    sy := acc.sy + p.2
    sxx := acc.sxx + p.1 * p.1
    sxy := acc.sxy + p.1 * p.2
    n := acc.n + 1 }

/-- The sums of fit_line over the zipped point list. -/
def lineFitSums (ps : List (ℚ × ℚ)) : FitSums :=
  ps.foldl lineStep ⟨0, 0, 0, 0, 0⟩

/-- Tail of fit_line (common.rs lines 434-449): fewer than 2 accumulated
points or a small denominator give none; the is_finite checks on denom,
slope and intercept are vacuous over the rationals. -/
def lineFitTail (s : FitSums) : Option (ℚ × ℚ) :=
  if s.n < 2 then none
  else if |fitDenom s| < eps30 then none
  else
    some (((s.sy - (((s.n : ℚ) * s.sxy - s.sx * s.sy) / fitDenom s) * s.sx) / (s.n : ℚ)),
      ((s.n : ℚ) * s.sxy - s.sx * s.sy) / fitDenom s)

/-- fit_line from common.rs lines 412-450: mismatched or short inputs give
none up front, then the least-squares tail runs on all (finite) points. -/
def fit_line (x y : List ℚ) : Option (ℚ × ℚ) :=
  if x.length ≠ y.length ∨ x.length < 2 then none
  else lineFitTail (lineFitSums (x.zip y))

/-- Modelled from the spec: the linear fit as section 4.3 words it, with
every point whose x or y is non-positive (or non-finite) excluded from the
fitted sums and none returned when fewer than 2 valid points remain. This
definition exists only to be compared with fit_line, which is translated
from the source. -/
def fit_line_specwords (x y : List ℚ) : Option (ℚ × ℚ) :=
  if x.length ≠ y.length ∨ x.length < 2 then none
  else lineFitTail (lineFitSums ((x.zip y).filter fun p => decide (0 < p.1 ∧ 0 < p.2)))

theorem zip_map_fst_snd_eq (l : List (ℚ × ℚ)) :
    (l.map Prod.fst).zip (l.map Prod.snd) = l := by
  induction l with
  | nil => rfl
  | cons p l ih => simpa using ih

theorem lnFoldl_filter (lnQ : ℚ → ℚ) (ps : List (ℚ × ℚ)) : ∀ acc : FitSums,
    (ps.filter fun p => decide (0 < p.1 ∧ 0 < p.2)).foldl (lnStep lnQ) acc =
      ps.foldl (lnStep lnQ) acc := by
  induction ps with
  | nil => intro acc; rfl
  | cons p ps ih =>
    intro acc
    by_cases h : 0 < p.1 ∧ 0 < p.2
    · have hstep : lnStep lnQ acc p =
          { sx := acc.sx + p.1, sy := acc.sy + lnQ p.2, sxx := acc.sxx + p.1 * p.1,
            sxy := acc.sxy + p.1 * lnQ p.2, n := acc.n + 1 } := by
        have : ¬(p.1 ≤ 0 ∨ p.2 ≤ 0) := by
          push_neg
          exact h
        simp [lnStep, this]
      simp only [List.filter_cons, decide_eq_true_eq, if_pos h, List.foldl_cons]
      exact ih _
    · have hstep : lnStep lnQ acc p = acc := by
        have : p.1 ≤ 0 ∨ p.2 ≤ 0 := by
          rcases not_and_or.mp h with h1 | h1
          · exact Or.inl (not_lt.mp h1)
          · exact Or.inr (not_lt.mp h1)
        simp [lnStep, this]
      simp only [List.filter_cons, decide_eq_true_eq, if_neg h, List.foldl_cons, hstep]
      exact ih _

theorem lnFitSums_filter (lnQ : ℚ → ℚ) (ps : List (ℚ × ℚ)) :
    lnFitSums lnQ (ps.filter fun p => decide (0 < p.1 ∧ 0 < p.2)) = lnFitSums lnQ ps :=
  lnFoldl_filter lnQ ps _

/-- Claim C7 (amended): the log-linear fit excludes exactly the points with
non-positive x or y from its sums, and returns (0, 0) when fewer than 2
valid points remain or the normal-equations denominator magnitude is below
1e-30; the linear fit keeps every (finite) point, including non-positive
ones, and returns none when the input lengths differ, the inputs hold
fewer than 2 points, or the denominator magnitude is below 1e-30. -/
theorem fit_validity_and_degeneracy :
    (∀ (lnQ : ℚ → ℚ) (x y : List ℚ),
      fit_ln_vs_x lnQ x y =
        fit_ln_vs_x lnQ (((x.zip y).filter fun p => decide (0 < p.1 ∧ 0 < p.2)).map Prod.fst)
          (((x.zip y).filter fun p => decide (0 < p.1 ∧ 0 < p.2)).map Prod.snd)) ∧
    (∀ (lnQ : ℚ → ℚ) (x y : List ℚ),
      (lnFitSums lnQ (x.zip y)).n < 2 ∨ |fitDenom (lnFitSums lnQ (x.zip y))| < eps30 →
      fit_ln_vs_x lnQ x y = (0, 0)) ∧
    (∀ x y : List ℚ,
      x.length ≠ y.length ∨ x.length < 2 ∨ |fitDenom (lineFitSums (x.zip y))| < eps30 →
      fit_line x y = none) := by
  refine ⟨?_, ?_, ?_⟩
  · intro lnQ x y
    rw [fit_ln_vs_x, fit_ln_vs_x, zip_map_fst_snd_eq, lnFitSums_filter]
  · intro lnQ x y h
    rw [fit_ln_vs_x, lnFitTail]
    rcases h with h | h
    · rw [if_pos h]
    · by_cases h2 : (lnFitSums lnQ (x.zip y)).n < 2
      · rw [if_pos h2]
      · rw [if_neg h2, if_pos h]
  · intro x y h
    rcases h with h | h | h
    · rw [fit_line, if_pos (Or.inl h)]
    · rw [fit_line, if_pos (Or.inr h)]
    · rw [fit_line]
      by_cases h2 : x.length ≠ y.length ∨ x.length < 2
      · rw [if_pos h2]
      · rw [if_neg h2, lineFitTail]
        by_cases h3 : (lineFitSums (x.zip y)).n < 2
        · rw [if_pos h3]
        · rw [if_neg h3, if_pos h]

/-- Claim C7 (counterexample): fit_line keeps the point with negative x,
fitting both points of ([-1, 1], [1, 2]) to the line 3/2 + x/2, while the
fit that the spec words describe would exclude that point, leaving one
valid point, and return none. -/
theorem fit_line_keeps_nonpositive_cex :
    fit_line [-1, 1] [1, 2] = some (3 / 2, 1 / 2) ∧
      fit_line_specwords [-1, 1] [1, 2] = none := by
  constructor <;> decide

/-- Clamp as f64::clamp behaves on finite inputs: below lo gives lo, above
hi gives hi, otherwise the value itself. -/
def clampQ (x lo hi : ℚ) : ℚ :=
  if x < lo then lo else if x > hi then hi else x

/-- Lower bracket bound -0.999999 from booth.rs line 204 (also the Newton
clamp floor at line 193). -/
def bracketLo : ℚ := -(999999 / 1000000)

/-- Geometric-expansion cap 1e6 from booth.rs line 213. -/
def bigHi : ℚ := 10 ^ 6

/-- Central-difference step scale 1e-6 from booth.rs line 188. -/
def hScale : ℚ := 1 / 10 ^ 6

/-- The Newton phase of solve_chi_exp_thin (booth.rs lines 179-201), over an
abstract residual f; none models a non-finite f64 residual, and a returned
none here means the source breaks out to the bracket fallback (also when
the 20 iterations are spent). -/
def newtonLoop (f : ℚ → Option ℚ) : ℕ → ℚ → Option ℚ
  | 0, _ => none
  | fuel + 1, x =>
    match f x with
    | none => none
    | some fx =>
      if |fx| < eps12 then some x
      else
        let h := hScale * max |x| 1
        match f (x + h), f (x - h) with
        | some a, some b =>
          let df := (a - b) / (2 * h)
          if |df| < eps12 then none
          else
            let xnext := clampQ (x - fx / df) bracketLo 10
            if |xnext - x| < eps12 then some xnext
            else newtonLoop f fuel xnext
        | _, _ => none

/-- Initial upper bracket bound (max(chi_true, 0) + 1) * 2 from booth.rs
line 205. -/
def bracketInit (chiTrue : ℚ) : ℚ := (max chiTrue 0 + 1) * 2

/-- The geometric doubling of the upper bound (booth.rs lines 210-222):
each pass doubles hi, stops past 1e6, and otherwise tests for a finite
sign change against the fixed finite lower residual. Returns the found
upper bound paired with the lower residual value. -/
def expandLoop (f : ℚ → Option ℚ) (flo : Option ℚ) : ℕ → ℚ → Option (ℚ × ℚ)
  | 0, _ => none
  | fuel + 1, hi =>
    let hi2 := hi * 2
    if hi2 > bigHi then none
    else
      match flo, f hi2 with
      | some a, some b =>
        if a * b ≤ 0 then some (hi2, a) else expandLoop f flo fuel hi2
      | _, _ => expandLoop f flo fuel hi2

/-- The whole bracket phase (booth.rs lines 203-228): the initial pair is
tested first, then at most 40 doublings capped at 1e6. -/
def bracketPhase (f : ℚ → Option ℚ) (chiTrue : ℚ) : Option (ℚ × ℚ) :=
  match f bracketLo, f (bracketInit chiTrue) with
  | some a, some b =>
    if a * b ≤ 0 then some (bracketInit chiTrue, a)
    else expandLoop f (some a) 40 (bracketInit chiTrue)
  | flo, _ => expandLoop f flo 40 (bracketInit chiTrue)

/-- The bisection loop of solve_chi_exp_thin (booth.rs lines 230-249): a
non-finite midpoint residual is the error case, convergence in residual or
width returns the midpoint, and spent fuel returns the final bracket
midpoint. -/
def bisectLoop (f : ℚ → Option ℚ) : ℕ → ℚ → ℚ → ℚ → Except Unit ℚ
  | 0, lo, hi, _ => .ok ((lo + hi) / 2)
  | fuel + 1, lo, hi, flo =>
    let mid := (lo + hi) / 2
    match f mid with
    | none => .error ()
    | some fmid =>
      if |fmid| < eps12 ∨ |hi - lo| < eps10 then .ok mid
      else if flo * fmid ≤ 0 then bisectLoop f fuel lo mid flo
      else bisectLoop f fuel mid hi fmid

/-- Whether the bisection loop meets a non-finite residual before it stops:
the mirror of the error case of bisectLoop, stated as the executable
predicate the property talks about. -/
def bisectHitsNonFinite (f : ℚ → Option ℚ) : ℕ → ℚ → ℚ → ℚ → Bool
  | 0, _, _, _ => false
  | fuel + 1, lo, hi, flo =>
    let mid := (lo + hi) / 2
    match f mid with
    | none => true
    | some fmid =>
      if |fmid| < eps12 ∨ |hi - lo| < eps10 then false
      else if flo * fmid ≤ 0 then bisectHitsNonFinite f fuel lo mid flo
      else bisectHitsNonFinite f fuel mid hi fmid

/-- solve_chi_exp_thin from booth.rs lines 169-250, over the abstract
per-point residual closure f (the source builds f from correct_single_thin
at index i and subtracts chi_true): Newton first, then bracket expansion,
then bisection; the two error exits carry the index in their message. -/
def solve_chi_exp_thin (f : ℚ → Option ℚ) (i : ℕ) (chiTrue : ℚ) :
    Except SelfAbsError ℚ :=
  match newtonLoop f 20 chiTrue with
  | some x => .ok x
  | none =>
    match bracketPhase f chiTrue with
    | none =>
      .error (.insufficientData
        ("failed to bracket thin Booth inversion at index " ++ toString i))
    | some (hi, flo) =>
      match bisectLoop f 80 bracketLo hi flo with
      | .error _ =>
        .error (.insufficientData
          ("non-finite thin Booth inversion function at index " ++ toString i))
      | .ok v => .ok v

theorem bisectLoop_error_iff (f : ℚ → Option ℚ) :
    ∀ (fuel : ℕ) (lo hi flo : ℚ),
      (∃ e, bisectLoop f fuel lo hi flo = .error e) ↔
        bisectHitsNonFinite f fuel lo hi flo = true := by
  intro fuel
  induction fuel with
  | zero =>
    intro lo hi flo
    simp [bisectLoop, bisectHitsNonFinite]
  | succ fuel ih =>
    intro lo hi flo
    simp only [bisectLoop, bisectHitsNonFinite]
    cases hf : f ((lo + hi) / 2) with
    | none => simp
    | some fmid =>
      by_cases hconv : |fmid| < eps12 ∨ |hi - lo| < eps10
      · simp [hconv]
      · by_cases hsign : flo * fmid ≤ 0
        · simpa [hconv, hsign] using ih lo ((lo + hi) / 2) flo
        · simpa [hconv, hsign] using ih ((lo + hi) / 2) hi fmid

/-- Claim C1: the per-point thin-sample inversion fails with
InsufficientData exactly when, after the Newton phase has given up (at
most 20 iterations, central-difference derivative, clamp to
[-0.999999, 10], success on residual below 1e-12), either no sign-changing
finite bracket is found (initial upper bound (max(chi, 0) + 1) * 2, then
geometric doubling capped at 1e6, against the lower bound -0.999999), or a
non-finite residual is met during the up-to-80-step bisection; in every
other case it returns a value. -/
theorem solve_chi_exp_thin_error_iff (f : ℚ → Option ℚ) (i : ℕ) (chiTrue : ℚ) :
    (∃ msg, solve_chi_exp_thin f i chiTrue = .error (.insufficientData msg)) ↔
      newtonLoop f 20 chiTrue = none ∧
        (bracketPhase f chiTrue = none ∨
          ∃ hi flo, bracketPhase f chiTrue = some (hi, flo) ∧
            bisectHitsNonFinite f 80 bracketLo hi flo = true) := by
  cases hn : newtonLoop f 20 chiTrue with
  | some x => simp [solve_chi_exp_thin, hn]
  | none =>
    cases hb : bracketPhase f chiTrue with
    | none => simp [solve_chi_exp_thin, hn, hb]
    | some p =>
      obtain ⟨hi, flo⟩ := p
      cases hbl : bisectLoop f 80 bracketLo hi flo with
      | error e =>
        have hhit : bisectHitsNonFinite f 80 bracketLo hi flo = true :=
          (bisectLoop_error_iff f 80 bracketLo hi flo).mp ⟨e, hbl⟩
        constructor
        · intro _
          exact ⟨rfl, Or.inr ⟨hi, flo, rfl, hhit⟩⟩
        · intro _
          refine ⟨"non-finite thin Booth inversion function at index " ++ toString i, ?_⟩
          simp [solve_chi_exp_thin, hn, hb, hbl]
      | ok v =>
        have hnot : bisectHitsNonFinite f 80 bracketLo hi flo = false := by
          cases hh : bisectHitsNonFinite f 80 bracketLo hi flo with
          | false => rfl
          | true =>
            obtain ⟨e, he⟩ := (bisectLoop_error_iff f 80 bracketLo hi flo).mpr hh
            rw [hbl] at he
            exact absurd he (by simp)
        simp [solve_chi_exp_thin, hn, hb, hbl, hnot]

/-- Bracket evolution of the bisection loop: the same recursion as
bisectLoop, tracking the (lo, hi, flo) state instead of the returned
value. -/
def bisectIter (f : ℚ → Option ℚ) : ℕ → ℚ × ℚ × ℚ → ℚ × ℚ × ℚ
  | 0, st => st
  | fuel + 1, (lo, hi, flo) =>
    let mid := (lo + hi) / 2
    match f mid with
    | none => (lo, hi, flo)
    | some fmid =>
      if |fmid| < eps12 ∨ |hi - lo| < eps10 then (lo, hi, flo)
      else if flo * fmid ≤ 0 then bisectIter f fuel (lo, mid, flo)
      else bisectIter f fuel (mid, hi, fmid)

/-- Whether the bisection loop spends all its fuel without any early stop:
every visited midpoint residual is finite, never below 1e-12 in magnitude,
and the bracket width never falls below 1e-10. -/
def bisectRunsFull (f : ℚ → Option ℚ) : ℕ → ℚ → ℚ → ℚ → Bool
  | 0, _, _, _ => true
  | fuel + 1, lo, hi, flo =>
    let mid := (lo + hi) / 2
    match f mid with
    | none => false
    | some fmid =>
      if |fmid| < eps12 ∨ |hi - lo| < eps10 then false
      else if flo * fmid ≤ 0 then bisectRunsFull f fuel lo mid flo
      else bisectRunsFull f fuel mid hi fmid

theorem bisectLoop_full (f : ℚ → Option ℚ) : ∀ (fuel : ℕ) (lo hi flo : ℚ),
    bisectRunsFull f fuel lo hi flo = true →
    bisectLoop f fuel lo hi flo =
      .ok (((bisectIter f fuel (lo, hi, flo)).1 + (bisectIter f fuel (lo, hi, flo)).2.1) / 2) := by
  intro fuel
  induction fuel with
  | zero =>
    intro lo hi flo _
    simp [bisectLoop, bisectIter]
  | succ fuel ih =>
    intro lo hi flo hfull
    simp only [bisectRunsFull] at hfull
    simp only [bisectLoop, bisectIter]
    cases hf : f ((lo + hi) / 2) with
    | none =>
      rw [hf] at hfull
      simp at hfull
    | some fmid =>
      rw [hf] at hfull
      by_cases hconv : |fmid| < eps12 ∨ |hi - lo| < eps10
      · simp [hconv] at hfull
      · by_cases hsign : flo * fmid ≤ 0
        · simp only [hconv, hsign] at hfull
          simp [hconv, hsign] at hfull
          simpa [hconv, hsign] using ih lo ((lo + hi) / 2) flo hfull
        · simp [hconv, hsign] at hfull
          simpa [hconv, hsign] using ih ((lo + hi) / 2) hi fmid hfull

/-- Claim C9: when the bisection loop of solve_chi_exp_thin spends all 80
iterations with finite residuals and neither stopping test ever firing
(residual magnitude below 1e-12, width below 1e-10), it returns the final
bracket midpoint as a successful value, not an error. -/
theorem bisection_fuel_exhaustion_returns_midpoint (f : ℚ → Option ℚ) (lo hi flo : ℚ)
    (h : bisectRunsFull f 80 lo hi flo = true) :
    bisectLoop f 80 lo hi flo =
      .ok (((bisectIter f 80 (lo, hi, flo)).1 + (bisectIter f 80 (lo, hi, flo)).2.1) / 2) :=
  bisectLoop_full f 80 lo hi flo h

/-- A residual with no root and huge values: it keeps the 80-step bisection
of the witness from ever meeting a stopping test when started on the wide
bracket [0, 2 to the 80]. -/
def bigResidual : ℚ → Option ℚ := fun x => some (x + 2 ^ 90)

set_option maxRecDepth 40000 in
/-- Claim C9 witness: a concrete 80-iteration run with no early stop,
ending in the successful midpoint of the final bracket. -/
theorem bisection_fuel_exhaustion_returns_midpoint_witness :
    bisectRunsFull bigResidual 80 0 (2 ^ 80) (2 ^ 90) = true ∧
      bisectLoop bigResidual 80 0 (2 ^ 80) (2 ^ 90) =
        .ok (((bisectIter bigResidual 80 (0, 2 ^ 80, 2 ^ 90)).1 +
          (bisectIter bigResidual 80 (0, 2 ^ 80, 2 ^ 90)).2.1) / 2) :=
  ⟨by decide, bisection_fuel_exhaustion_returns_midpoint bigResidual 0 (2 ^ 80) (2 ^ 90)
    (by decide)⟩

/-- correct_single_thick from booth.rs lines 134-142: the thick chi
correction with pass-through when the denominator magnitude is at most
1e-10. -/
def correct_single_thick (si chiExp : ℚ) : ℚ :=
  if |1 - si * (chiExp + 1)| > eps10 then chiExp / (1 - si * (chiExp + 1)) else chiExp

/-- Per-point Troger correction factor from troger.rs lines 74-78:
1 / (1 - s) with pass-through factor 1 when 1 - s is within 1e-10 of
zero. -/
def trogerFactorPoint (si : ℚ) : ℚ :=
  if |1 - si| > eps10 then 1 / (1 - si) else 1

/-- eta = alpha * d / sin(phi) of correct_single_thin (booth.rs lines
145-149), thickness converted from micrometres to cm. -/
def thinEta (alphaLin sinPhi thicknessUm : ℚ) : ℚ :=
  alphaLin * (thicknessUm * (1 / 10 ^ 4)) / sinPhi

/-- beta = mu_a * exp(-eta) * eta of correct_single_thin (booth.rs line
151); E is the exponential oracle and mu_a = s * alpha * density. -/
def thinBeta (E : ℚ → ℚ) (alphaI sI sinPhi density thicknessUm : ℚ) : ℚ :=
  sI * (alphaI * density) * E (-(thinEta (alphaI * density) sinPhi thicknessUm)) *
    thinEta (alphaI * density) sinPhi thicknessUm

/-- gamma = 1 - exp(-eta) of correct_single_thin (booth.rs line 152). -/
def thinGamma (E : ℚ → ℚ) (alphaI sinPhi density thicknessUm : ℚ) : ℚ :=
  1 - E (-(thinEta (alphaI * density) sinPhi thicknessUm))

/-- term1 of correct_single_thin (booth.rs line 158). -/
def thinTerm1 (E : ℚ → ℚ) (alphaI sI sinPhi density thicknessUm chiExp : ℚ) : ℚ :=
  thinGamma E alphaI sinPhi density thicknessUm *
      (alphaI * density - sI * (alphaI * density) * (chiExp + 1)) +
    thinBeta E alphaI sI sinPhi density thicknessUm

/-- Discriminant term1 * term1 + term2 of correct_single_thin (booth.rs
lines 159-160). -/
def thinDisc (E : ℚ → ℚ) (alphaI sI sinPhi density thicknessUm chiExp : ℚ) : ℚ :=
  thinTerm1 E alphaI sI sinPhi density thicknessUm chiExp *
      thinTerm1 E alphaI sI sinPhi density thicknessUm chiExp +
    4 * (alphaI * density) * thinBeta E alphaI sI sinPhi density thicknessUm *
      thinGamma E alphaI sinPhi density thicknessUm * chiExp

/-- correct_single_thin from booth.rs lines 144-167, with exponential
oracle E and square-root oracle sq: a beta below 1e-30 in magnitude or a
negative discriminant pass chi through unchanged; otherwise the positive
quadratic root is returned. -/
def correct_single_thin (E sq : ℚ → ℚ) (alphaI sI sinPhi density thicknessUm chiExp : ℚ) : ℚ :=
  if |thinBeta E alphaI sI sinPhi density thicknessUm| < eps30 then chiExp
  else if thinDisc E alphaI sI sinPhi density thicknessUm chiExp < 0 then chiExp
  else
    (-thinTerm1 E alphaI sI sinPhi density thicknessUm chiExp +
        sq (thinDisc E alphaI sI sinPhi density thicknessUm chiExp)) /
      (2 * thinBeta E alphaI sI sinPhi density thicknessUm)

/-- The residual closure built at booth.rs line 176: the thin correction of
the candidate minus chi_true; always finite in the rational model. -/
def boothThinResidual (E sq : ℚ → ℚ) (alphaI sI sinPhi density thicknessUm chiTrue x : ℚ) :
    Option ℚ :=
  some (correct_single_thin E sq alphaI sI sinPhi density thicknessUm x - chiTrue)

/-- The thick branch loop of suppression_factor (booth.rs lines 98-109):
any denominator below 1e-12 in magnitude aborts the whole call, otherwise
each point gets the closed form (1 - s) / (1 + s * chi). -/
def thickLoop (chiTrue : ℚ) : List ℚ → Except SelfAbsError (List ℚ)
  | [] => .ok []
  | si :: rest =>
    if |1 + si * chiTrue| < eps12 then
      .error (.insufficientData "unstable thick-limit denominator while computing suppression")
    else
      match thickLoop chiTrue rest with
      | .error e => .error e
      | .ok out => .ok ((1 - si) / (1 + si * chiTrue) :: out)

/-- The thin branch loop of suppression_factor (booth.rs lines 112-117),
with the per-index inversion solver abstracted; a solver error aborts the
whole call. -/
def thinLoop (chiTrue : ℚ) (thinSolve : ℕ → Except SelfAbsError ℚ) :
    List ℚ → ℕ → Except SelfAbsError (List ℚ)
  | [], _ => .ok []
  | _ :: rest, i =>
    match thinSolve i with
    | .error e => .error e
    | .ok chiExp =>
      match thinLoop chiTrue thinSolve rest (i + 1) with
      | .error e => .error e
      | .ok out => .ok (chiExp / chiTrue :: out)

/-- suppression_factor from booth.rs lines 86-118: chi zero (or non-finite)
is rejected, then the thick closed-form loop or the per-point thin
inversion loop runs. -/
def suppression_factor (isThick : Bool) (s : List ℚ) (chiTrue : ℚ)
    (thinSolve : ℕ → Except SelfAbsError ℚ) : Except SelfAbsError (List ℚ) :=
  if chiTrue = 0 then .error (.insufficientData "chi_true must be finite and non-zero")
  else if isThick then thickLoop chiTrue s
  else thinLoop chiTrue thinSolve s 0

theorem thickLoop_ok (chiTrue : ℚ) : ∀ (s out : List ℚ),
    thickLoop chiTrue s = .ok out →
    out.length = s.length ∧
      ∀ i, ∀ his : i < s.length, ∀ hio : i < out.length,
        eps12 ≤ |1 + s[i] * chiTrue| ∧ out[i] = (1 - s[i]) / (1 + s[i] * chiTrue) := by
  intro s
  induction s with
  | nil =>
    intro out hok
    simp only [thickLoop] at hok
    cases hok
    simp
  | cons si rest ih =>
    intro out hok
    simp only [thickLoop] at hok
    by_cases hden : |1 + si * chiTrue| < eps12
    · rw [if_pos hden] at hok
      exact absurd hok (by simp)
    · rw [if_neg hden] at hok
      cases hrec : thickLoop chiTrue rest with
      | error e => rw [hrec] at hok; exact absurd hok (by simp)
      | ok out2 =>
        rw [hrec] at hok
        cases hok
        obtain ⟨hlen, hpts⟩ := ih out2 hrec
        refine ⟨by simpa using hlen, ?_⟩
        intro i his hio
        cases i with
        | zero => exact ⟨not_lt.mp hden, by simp⟩
        | succ j =>
          have hjs : j < rest.length := by simpa using his
          have hjo : j < out2.length := by simpa using hio
          simpa using hpts j hjs hjo

/-- Claim C2: in the thick classification, suppression_factor with nonzero
chi rejects nothing silently: whenever it returns a list, that list is as
long as s, every grid point satisfied the 1e-12 denominator floor, and
every entry equals the closed form (1 - s) / (1 + s * chi) exactly (hence
within 1e-12). -/
theorem suppression_factor_thick_closed_form (s : List ℚ) (chiTrue : ℚ)
    (thinSolve : ℕ → Except SelfAbsError ℚ) (out : List ℚ)
    (hchi : chiTrue ≠ 0)
    (hok : suppression_factor true s chiTrue thinSolve = .ok out) :
    out.length = s.length ∧
      ∀ i, ∀ his : i < s.length, ∀ hio : i < out.length,
        eps12 ≤ |1 + s[i] * chiTrue| ∧
        out[i] = (1 - s[i]) / (1 + s[i] * chiTrue) ∧
        |out[i] - (1 - s[i]) / (1 + s[i] * chiTrue)| ≤ eps12 := by
  rw [suppression_factor, if_neg hchi, if_pos rfl] at hok
  obtain ⟨hlen, hpts⟩ := thickLoop_ok chiTrue s out hok
  refine ⟨hlen, ?_⟩
  intro i his hio
  obtain ⟨hfloor, hval⟩ := hpts i his hio
  refine ⟨hfloor, hval, ?_⟩
  rw [hval]
  simp [eps12]

instance {ε α : Type} [DecidableEq ε] [DecidableEq α] : DecidableEq (Except ε α) := fun a b =>
  match a, b with
  | .ok x, .ok y =>
    if h : x = y then .isTrue (by rw [h]) else .isFalse (by simp [h])
  | .error x, .error y =>
    if h : x = y then .isTrue (by rw [h]) else .isFalse (by simp [h])
  | .ok _, .error _ => .isFalse (by simp)
  | .error _, .ok _ => .isFalse (by simp)

/-- Per-point Fluo correction (fluo.rs lines 108-116): mu times
(beta * g + bg) over (beta * g + gamma_prime + 1 - mu), passing mu through
unchanged when the denominator magnitude is below 1e-30. -/
def correctMuPoint (betaG denomConst bgi mu : ℚ) : ℚ :=
  if |denomConst - mu| < eps30 then mu else mu * (betaG + bgi) / (denomConst - mu)

/-- Fluo correction parameters (fluo.rs lines 14-27), restricted to the
fields correct_mu reads. -/
structure FluoParams where
  beta : ℚ
  gamma_prime : ℚ
  ratio : ℚ
  mu_background_norm : List ℚ

/-- Indexed walk of correct_mu (fluo.rs lines 105-118): the enumerate loop
over mu_norm, reading the background at the same index and substituting
gamma_prime past its end. -/
def correctMuGo (betaG denomConst gp : ℚ) (bg : List ℚ) : ℕ → List ℚ → List ℚ
  | _, [] => []
  | i, mu :: rest =>
    correctMuPoint betaG denomConst ((bg[i]?).getD gp) mu ::
      correctMuGo betaG denomConst gp bg (i + 1) rest

/-- correct_mu from fluo.rs lines 100-119. -/
def correct_mu (p : FluoParams) (muNorm : List ℚ) : List ℚ :=
  correctMuGo (p.beta * p.ratio) (p.beta * p.ratio + p.gamma_prime + 1) p.gamma_prime
    p.mu_background_norm 0 muNorm

/-- Per-point Atoms correction ratio (atoms.rs lines 95-104): sigma =
(mu_f + mu_total) / (mu_f + mu_bg) when the denominator is positive, and
the silent fallback 1 otherwise, where mu_total = mu_central + mu_bg. -/
def atomsSigmaPoint (muF muBgI muCentralI : ℚ) : ℚ :=
  if muF + muBgI > 0 then (muF + (muCentralI + muBgI)) / (muF + muBgI) else 1

/-- one_minus_exp_neg from ameyanagi.rs lines 347-355, with the f64 exp_m1
primitive as the oracle em1. -/
def one_minus_exp_neg (em1 : ℚ → ℚ) (x : ℚ) : ℚ :=
  if x ≤ 0 then 0 else if x > 700 then 1 else -em1 (-x)

/-- The per-point loop of ameyanagi_suppression_exact (ameyanagi.rs lines
206-237) over the zipped (mu_total, mu_a) curves, carrying the running
index for the error message; the is_finite check on the computed point is
vacuous over the rationals. -/
def ameyanagiLoop (em1 : ℚ → ℚ) (g muF beta chi : ℚ) :
    List (ℚ × ℚ) → ℕ → Except SelfAbsError (List ℚ)
  | [], _ => .ok []
  | p :: rest, i =>
    if |one_minus_exp_neg em1 ((p.1 + g * muF) * beta)| < eps300 ∨
        |p.1 + g * muF + p.2 * chi| < eps300 then
      .error (.insufficientData ("unstable denominator at index " ++ toString i))
    else
      match ameyanagiLoop em1 g muF beta chi rest (i + 1) with
      | .error e => .error e
      | .ok out =>
        .ok ((one_minus_exp_neg em1 ((p.1 + g * muF + p.2 * chi) * beta) /
              one_minus_exp_neg em1 ((p.1 + g * muF) * beta) *
              ((p.1 + g * muF) * (1 + chi) / (p.1 + g * muF + p.2 * chi)) - 1) / chi :: out)

/-- Scalar settings of ameyanagi_suppression_exact (ameyanagi.rs lines
96-108), with none standing for a non-finite f64 scalar and the thickness
given directly in cm (the ThicknessCm variant; no property under study
touches the pellet variant). -/
structure AmeyanagiSettings where
  density : Option ℚ
  phiRad : Option ℚ
  thetaRad : Option ℚ
  thicknessCm : Option ℚ
  chiAssumed : Option ℚ

/-- resolve_cm for the direct-thickness variant (ameyanagi.rs lines
31-65): the density and then the resolved thickness must be finite and
positive. -/
def resolve_cm (density thicknessCm : Option ℚ) : Except SelfAbsError ℚ :=
  match density with
  | none => .error (.insufficientData "density must be finite and > 0")
  | some rho =>
    if rho ≤ 0 then .error (.insufficientData "density must be finite and > 0")
    else
      match thicknessCm with
      | none => .error (.insufficientData "resolved thickness must be finite and > 0")
      | some d =>
        if d ≤ 0 then .error (.insufficientData "resolved thickness must be finite and > 0")
        else .ok d

/-- ameyanagi_suppression_exact from ameyanagi.rs lines 128-254: the
validation prefix in source order (empty grid, chi, angle finiteness, sine
positivity, thickness resolution), then the per-point loop on the oracle
attenuation curves; the returned pair is the suppression curve and its
mean. The sine is the oracle sinQ and the linear attenuation curves
(muTotal, muA, muF) stand for the cross-section table results over the
energy grid. -/
def ameyanagi_suppression_exact (sinQ em1 : ℚ → ℚ) (muTotal muA : List ℚ) (muF : ℚ)
    (energies : List ℚ) (st : AmeyanagiSettings) : Except SelfAbsError (List ℚ × ℚ) :=
  if energies.isEmpty then .error (.insufficientData "energy grid must not be empty")
  else
    match st.chiAssumed with
    | none => .error (.insufficientData "chi must be finite and non-zero")
    | some chi =>
      if chi = 0 then .error (.insufficientData "chi must be finite and non-zero")
      else
        match st.phiRad, st.thetaRad with
        | some phi, some theta =>
          if sinQ phi ≤ 0 ∨ sinQ theta ≤ 0 then
            .error (.insufficientData "angles must be in (0, pi) with positive sine")
          else
            match resolve_cm st.density st.thicknessCm with
            | .error e => .error e
            | .ok d =>
              match ameyanagiLoop em1 (sinQ phi / sinQ theta) muF (d / sinQ phi) chi
                  (muTotal.zip muA) 0 with
              | .error e => .error e
              | .ok r => .ok (r, r.foldl (· + ·) 0 / (r.length : ℚ))
        | _, _ => .error (.insufficientData "angles must be finite")

/-- Claim C2 witness: a concrete thick-mode call on s = [1/2, 0] with chi
= 1/5, whose returned list matches the closed form at both points. -/
theorem suppression_factor_thick_closed_form_witness :
    ((1 : ℚ) / 5 ≠ 0) ∧
      suppression_factor true [1 / 2, 0] (1 / 5) (fun _ => .error (.insufficientData "")) =
        .ok [5 / 11, 1] ∧
      (([5 / 11, 1] : List ℚ).length = ([1 / 2, 0] : List ℚ).length ∧
        ∀ i, ∀ his : i < ([1 / 2, 0] : List ℚ).length, ∀ hio : i < ([5 / 11, 1] : List ℚ).length,
          eps12 ≤ |1 + ([1 / 2, 0] : List ℚ)[i] * (1 / 5)| ∧
          ([5 / 11, 1] : List ℚ)[i] =
            (1 - ([1 / 2, 0] : List ℚ)[i]) / (1 + ([1 / 2, 0] : List ℚ)[i] * (1 / 5)) ∧
          |([5 / 11, 1] : List ℚ)[i] -
              (1 - ([1 / 2, 0] : List ℚ)[i]) / (1 + ([1 / 2, 0] : List ℚ)[i] * (1 / 5))| ≤ eps12) :=
  ⟨by norm_num, by decide,
    suppression_factor_thick_closed_form [1 / 2, 0] (1 / 5)
      (fun _ => .error (.insufficientData "")) [5 / 11, 1] (by norm_num) (by decide)⟩

/-- Claim C5: the stable one-minus-exponential primitive returns 0 for x
at most 0, returns 1 for x above 700, and returns minus expm1 of minus x
otherwise, whatever the expm1 primitive em1 computes. -/
theorem one_minus_exp_neg_cases (em1 : ℚ → ℚ) (x : ℚ) :
    (x ≤ 0 → one_minus_exp_neg em1 x = 0) ∧
    (700 < x → one_minus_exp_neg em1 x = 1) ∧
    (0 < x → x ≤ 700 → one_minus_exp_neg em1 x = -em1 (-x)) := by
  refine ⟨?_, ?_, ?_⟩
  · intro h
    simp [one_minus_exp_neg, h]
  · intro h
    have h0 : ¬x ≤ 0 := by linarith
    simp [one_minus_exp_neg, h0, h]
  · intro h1 h2
    have h0 : ¬x ≤ 0 := not_le.mpr h1
    have h7 : ¬x > 700 := not_lt.mpr h2
    simp [one_minus_exp_neg, h0, h7]

/-- Claim C6 (amended): with a non-empty energy grid, a chi of zero or a
non-finite chi is rejected before any per-point computation with an
InsufficientData error whose message mentions chi; only the empty-grid
check precedes the chi check. -/
theorem ameyanagi_rejects_degenerate_chi (sinQ em1 : ℚ → ℚ) (muTotal muA : List ℚ)
    (muF : ℚ) (energies : List ℚ) (st : AmeyanagiSettings)
    (hne : energies ≠ [])
    (hchi : st.chiAssumed = none ∨ st.chiAssumed = some 0) :
    ameyanagi_suppression_exact sinQ em1 muTotal muA muF energies st =
      .error (.insufficientData "chi must be finite and non-zero") ∧
      List.IsInfix "chi".toList "chi must be finite and non-zero".toList := by
  have hemp : energies.isEmpty = false := by
    cases energies with
    | nil => exact absurd rfl hne
    | cons a l => rfl
  constructor
  · rcases hchi with h | h
    · simp [ameyanagi_suppression_exact, hemp, h]
    · simp [ameyanagi_suppression_exact, hemp, h]
  · decide

/-- Claim C6 witness: a one-point grid with chi = 0 is rejected with the
chi-mentioning message. -/
theorem ameyanagi_rejects_degenerate_chi_witness :
    ([(7000 : ℚ)] ≠ ([] : List ℚ)) ∧
      ((some (0 : ℚ) = none ∨ some (0 : ℚ) = some 0)) ∧
      (ameyanagi_suppression_exact (fun _ => 1) (fun _ => 0) [1] [1] 1 [7000]
          ⟨some 1, some 1, some 1, some 1, some 0⟩ =
        .error (.insufficientData "chi must be finite and non-zero") ∧
        List.IsInfix "chi".toList "chi must be finite and non-zero".toList) :=
  ⟨by simp, Or.inr rfl,
    ameyanagi_rejects_degenerate_chi (fun _ => 1) (fun _ => 0) [1] [1] 1 [7000]
      ⟨some 1, some 1, some 1, some 1, some 0⟩ (by simp) (Or.inr rfl)⟩

/-- Claim C6 counterexample: with an empty energy grid and chi = 0, the
call fails with the empty-grid InsufficientData message, which does not
mention chi, so the rejection promised for every other input does not
hold there. -/
theorem ameyanagi_empty_grid_error_cex :
    ameyanagi_suppression_exact (fun _ => 1) (fun _ => 0) [] [] 1 []
        ⟨some 1, some 1, some 1, some 1, some 0⟩ =
      .error (.insufficientData "energy grid must not be empty") ∧
      ¬ List.IsInfix "chi".toList "energy grid must not be empty".toList := by
  constructor
  · rfl
  · decide

theorem correctMuGo_length (betaG denomConst gp : ℚ) (bg : List ℚ) :
    ∀ (muNorm : List ℚ) (i : ℕ),
      (correctMuGo betaG denomConst gp bg i muNorm).length = muNorm.length := by
  intro muNorm
  induction muNorm with
  | nil => intro i; rfl
  | cons m rest ih =>
    intro i
    simp [correctMuGo, ih]

theorem correctMuGo_get (betaG denomConst gp : ℚ) (bg : List ℚ) :
    ∀ (muNorm : List ℚ) (i j : ℕ), ∀ hj : j < muNorm.length,
      ∀ hjo : j < (correctMuGo betaG denomConst gp bg i muNorm).length,
      (correctMuGo betaG denomConst gp bg i muNorm)[j] =
        correctMuPoint betaG denomConst ((bg[i + j]?).getD gp) muNorm[j] := by
  intro muNorm
  induction muNorm with
  | nil =>
    intro i j hj
    simp at hj
  | cons m rest ih =>
    intro i j hj hjo
    cases j with
    | zero => simp [correctMuGo]
    | succ k =>
      have hk : k < rest.length := by simpa using hj
      have hko : k < (correctMuGo betaG denomConst gp bg (i + 1) rest).length := by
        rw [correctMuGo_length]
        exact hk
      have harith : i + 1 + k = i + (k + 1) := by omega
      simpa [correctMuGo, harith] using ih (i + 1) k hk hko

/-- Claim C10: correct_mu returns exactly one output per input point for
every input length, and at indices at or past the end of the stored
background curve it substitutes gamma_prime as the background value, so a
mu_norm longer than the background curve cannot index out of bounds. -/
theorem correct_mu_length_and_padding (p : FluoParams) (muNorm : List ℚ) :
    (correct_mu p muNorm).length = muNorm.length ∧
      ∀ j, ∀ hj : j < muNorm.length, ∀ hjo : j < (correct_mu p muNorm).length,
        p.mu_background_norm.length ≤ j →
        (correct_mu p muNorm)[j] =
          correctMuPoint (p.beta * p.ratio) (p.beta * p.ratio + p.gamma_prime + 1)
            p.gamma_prime muNorm[j] := by
  constructor
  · exact correctMuGo_length _ _ _ _ muNorm 0
  · intro j hj hjo hpast
    have hnone : (p.mu_background_norm[0 + j]?) = none := by
      rw [List.getElem?_eq_none]
      simpa using hpast
    have := correctMuGo_get (p.beta * p.ratio) (p.beta * p.ratio + p.gamma_prime + 1)
      p.gamma_prime p.mu_background_norm muNorm 0 j hj hjo
    simp only [correct_mu] at hjo ⊢
    rw [this, hnone]
    rfl

/-- The degeneracy test of one Ameyanagi grid point (ameyanagi.rs lines
211-221): the one-minus-exponential denominator or the ratio denominator
falls below the 1e-300 floor in magnitude. -/
def ameyanagiDegenerate (em1 : ℚ → ℚ) (g muF beta chi : ℚ) (p : ℚ × ℚ) : Prop :=
  |one_minus_exp_neg em1 ((p.1 + g * muF) * beta)| < eps300 ∨
    |p.1 + g * muF + p.2 * chi| < eps300

instance (em1 : ℚ → ℚ) (g muF beta chi : ℚ) (p : ℚ × ℚ) :
    Decidable (ameyanagiDegenerate em1 g muF beta chi p) := by
  rw [ameyanagiDegenerate]
  infer_instance

theorem ameyanagiLoop_abort (em1 : ℚ → ℚ) (g muF beta chi : ℚ) :
    ∀ (ps : List (ℚ × ℚ)) (i j : ℕ), ∀ hj : j < ps.length,
      ameyanagiDegenerate em1 g muF beta chi ps[j] →
      (∀ k, ∀ hk : k < j, ∀ hks : k < ps.length, ¬ ameyanagiDegenerate em1 g muF beta chi ps[k]) →
      ameyanagiLoop em1 g muF beta chi ps i =
        .error (.insufficientData ("unstable denominator at index " ++ toString (i + j))) := by
  intro ps
  induction ps with
  | nil =>
    intro i j hj
    simp at hj
  | cons p rest ih =>
    intro i j hj hdeg hmin
    cases j with
    | zero =>
      rw [List.getElem_cons_zero] at hdeg
      rw [ameyanagiDegenerate] at hdeg
      rw [ameyanagiLoop, if_pos hdeg, Nat.add_zero]
    | succ k =>
      have hp0 : ¬ ameyanagiDegenerate em1 g muF beta chi p := by
        have := hmin 0 (Nat.succ_pos k) (by simp)
        simpa using this
      rw [ameyanagiDegenerate] at hp0
      have hk : k < rest.length := by simpa using hj
      have hdegk : ameyanagiDegenerate em1 g muF beta chi rest[k] := by
        simpa using hdeg
      have hmink : ∀ m, ∀ hm : m < k, ∀ hms : m < rest.length,
          ¬ ameyanagiDegenerate em1 g muF beta chi rest[m] := by
        intro m hm hms
        have := hmin (m + 1) (by omega) (by simpa using hms)
        simpa using this
      have hrec := ih (i + 1) k hk hdegk hmink
      rw [ameyanagiLoop, if_neg hp0, hrec]
      have harith : i + 1 + k = i + (k + 1) := by omega
      rw [harith]

theorem thickLoop_abort (chiTrue : ℚ) :
    ∀ s : List ℚ, (∃ si ∈ s, |1 + si * chiTrue| < eps12) →
      ∃ m, thickLoop chiTrue s = .error (.insufficientData m) := by
  intro s
  induction s with
  | nil =>
    rintro ⟨si, h, _⟩
    simp at h
  | cons a rest ih =>
    rintro ⟨si, hmem, hdeg⟩
    by_cases ha : |1 + a * chiTrue| < eps12
    · refine ⟨"unstable thick-limit denominator while computing suppression", ?_⟩
      rw [thickLoop, if_pos ha]
    · rcases List.mem_cons.mp hmem with rfl | hmem2
      · exact absurd hdeg ha
      · obtain ⟨m, hm⟩ := ih ⟨si, hmem2, hdeg⟩
        refine ⟨m, ?_⟩
        rw [thickLoop, if_neg ha, hm]

/-- Claim C3 (amended): per-point degeneracies in the suppression
evaluators abort the whole call (index-annotated in the Ameyanagi loop and
the thin inversion, a fixed message in the Booth thick loop), while the
correction transforms pass the degenerate point through unchanged in these
cases: the Fluo denominator below 1e-30 in magnitude, the near-unity
thick-correction denominators of Troger and Booth, the Booth thin
quadratic with beta below 1e-30 in magnitude or with a negative
discriminant, and the Atoms ratio with a non-positive denominator (which
yields ratio 1). -/
theorem per_point_degeneracy_policy :
    (∀ betaG denomConst bgi mu : ℚ, |denomConst - mu| < eps30 →
      correctMuPoint betaG denomConst bgi mu = mu) ∧
    (∀ si : ℚ, ¬ |1 - si| > eps10 → trogerFactorPoint si = 1) ∧
    (∀ si chiExp : ℚ, ¬ |1 - si * (chiExp + 1)| > eps10 →
      correct_single_thick si chiExp = chiExp) ∧
    (∀ (E sq : ℚ → ℚ) (alphaI sI sinPhi density thicknessUm chiExp : ℚ),
      |thinBeta E alphaI sI sinPhi density thicknessUm| < eps30 →
      correct_single_thin E sq alphaI sI sinPhi density thicknessUm chiExp = chiExp) ∧
    (∀ (E sq : ℚ → ℚ) (alphaI sI sinPhi density thicknessUm chiExp : ℚ),
      thinDisc E alphaI sI sinPhi density thicknessUm chiExp < 0 →
      correct_single_thin E sq alphaI sI sinPhi density thicknessUm chiExp = chiExp) ∧
    (∀ muF muBgI muCentralI : ℚ, ¬ muF + muBgI > 0 →
      atomsSigmaPoint muF muBgI muCentralI = 1) ∧
    (∀ (em1 : ℚ → ℚ) (g muF beta chi : ℚ) (ps : List (ℚ × ℚ)) (j : ℕ), ∀ hj : j < ps.length,
      ameyanagiDegenerate em1 g muF beta chi ps[j] →
      (∀ k, ∀ hk : k < j, ∀ hks : k < ps.length,
        ¬ ameyanagiDegenerate em1 g muF beta chi ps[k]) →
      ameyanagiLoop em1 g muF beta chi ps 0 =
        .error (.insufficientData ("unstable denominator at index " ++ toString j))) ∧
    (∀ (chiTrue : ℚ) (s : List ℚ), (∃ si ∈ s, |1 + si * chiTrue| < eps12) →
      ∃ m, thickLoop chiTrue s = .error (.insufficientData m)) := by
  refine ⟨?_, ?_, ?_, ?_, ?_, ?_, ?_, ?_⟩
  · intro betaG denomConst bgi mu h
    rw [correctMuPoint, if_pos h]
  · intro si h
    rw [trogerFactorPoint, if_neg h]
  · intro si chiExp h
    rw [correct_single_thick, if_neg h]
  · intro E sq alphaI sI sinPhi density thicknessUm chiExp h
    rw [correct_single_thin, if_pos h]
  · intro E sq alphaI sI sinPhi density thicknessUm chiExp h
    rw [correct_single_thin]
    by_cases hb : |thinBeta E alphaI sI sinPhi density thicknessUm| < eps30
    · rw [if_pos hb]
    · rw [if_neg hb, if_pos h]
  · intro muF muBgI muCentralI h
    rw [atomsSigmaPoint, if_neg h]
  · intro em1 g muF beta chi ps j hj hdeg hmin
    simpa using ameyanagiLoop_abort em1 g muF beta chi ps 0 j hj hdeg hmin
  · exact thickLoop_abort

/-- Claim C3 counterexample: two per-point degeneracies beyond the two the
property allows are tolerated silently rather than aborting: the Booth
thin quadratic at a point with s = 0 has beta = 0, below the 1e-30 floor,
and passes chi through, and the Atoms ratio with denominator 0 yields the
silent fallback 1. -/
theorem per_point_pass_through_beyond_two_cex :
    correct_single_thin (fun _ => 1) (fun _ => 0) 1 0 1 1 10 (1 / 2) = 1 / 2 ∧
      atomsSigmaPoint 0 0 5 = 1 := by
  constructor <;> decide

/-- weighted_mu_total from common.rs lines 143-157: the stoichiometric sum
of per-element attenuation over the energy grid. The composition HashMap
is modelled as a list of (symbol, count) pairs in some iteration order,
and the mu_elam table lookup as the oracle muElam. -/
def weighted_mu_total (muElam : String → ℚ → ℚ) (comp : List (String × ℚ))
    (energies : List ℚ) : List ℚ :=
  comp.foldl
    (fun total sc => List.zipWith (fun t e => t + sc.2 * muElam sc.1 e) total energies)
    (energies.map fun _ => 0)

theorem foldl_perm_of_comm {α β : Type} (f : β → α → β)
    (hc : ∀ b a1 a2, f (f b a1) a2 = f (f b a2) a1) {l1 l2 : List α} (hp : l1.Perm l2) :
    ∀ b, l1.foldl f b = l2.foldl f b := by
  induction hp with
  | nil => intro b; rfl
  | cons x _ ih => intro b; simp only [List.foldl_cons]; exact ih _
  | swap x y l => intro b; simp only [List.foldl_cons]; rw [hc]
  | trans _ _ ih1 ih2 => intro b; rw [ih1, ih2]

theorem weightedStep_comm (muElam : String → ℚ → ℚ) :
    ∀ (energies total : List ℚ) (a b : String × ℚ),
      List.zipWith (fun t e => t + b.2 * muElam b.1 e)
        (List.zipWith (fun t e => t + a.2 * muElam a.1 e) total energies) energies =
      List.zipWith (fun t e => t + a.2 * muElam a.1 e)
        (List.zipWith (fun t e => t + b.2 * muElam b.1 e) total energies) energies := by
  intro energies
  induction energies with
  | nil => intro total a b; simp
  | cons e es ih =>
    intro total a b
    cases total with
    | nil => simp
    | cons t ts =>
      simp only [List.zipWith_cons_cons]
      rw [ih]
      congr 1
      ring

/-- Claim C4 (amended): with exact arithmetic, weighted_mu_total is a
function of the composition as a multiset: any two enumeration orders of
the same composition map give identical output curves, so repeated calls
with identical inputs agree however each fresh HashMap iterates. -/
theorem weighted_mu_total_perm_invariant (muElam : String → ℚ → ℚ)
    (comp1 comp2 : List (String × ℚ)) (energies : List ℚ) (hp : comp1.Perm comp2) :
    weighted_mu_total muElam comp1 energies = weighted_mu_total muElam comp2 energies :=
  foldl_perm_of_comm _ (fun totl a b => weightedStep_comm muElam energies totl a b) hp _

/-- Claim C4 witness: two enumeration orders of the Fe2O3 composition give
the same exact-arithmetic curve. -/
theorem weighted_mu_total_perm_invariant_witness :
    (([("Fe", (2 : ℚ)), ("O", 3)]).Perm [("O", (3 : ℚ)), ("Fe", 2)]) ∧
      weighted_mu_total (fun _ _ => 1) [("Fe", 2), ("O", 3)] [7000] =
        weighted_mu_total (fun _ _ => 1) [("O", 3), ("Fe", 2)] [7000] :=
  ⟨by decide,
    weighted_mu_total_perm_invariant (fun _ _ => 1) [("Fe", 2), ("O", 3)]
      [("O", 3), ("Fe", 2)] [7000] (by decide)⟩

/-- Power of two as a rational, for the binary64 rounding model. -/
def pow2 (e : ℤ) : ℚ :=
  if 0 ≤ e then ((2 ^ e.toNat : ℕ) : ℚ) else 1 / ((2 ^ (-e).toNat : ℕ) : ℚ)

/-- Fuelled binary exponent search, upward: for q at least 1, the number
of halvings until the value drops below 2. -/
def exptUp : ℕ → ℚ → ℕ
  | 0, _ => 0
  | fuel + 1, q => if q < 2 then 0 else exptUp fuel (q / 2) + 1

/-- Fuelled binary exponent search, downward: for q below 1, the number of
doublings until the value reaches 1. -/
def exptDown : ℕ → ℚ → ℕ
  | 0, _ => 0
  | fuel + 1, q => if 1 ≤ q then 0 else exptDown fuel (q * 2) + 1

/-- Binary exponent of a positive rational within the fuel range: the e
with pow2 e at most q and q below pow2 (e + 1). -/
def exptOf (q : ℚ) : ℤ :=
  if 1 ≤ q then exptUp 3000 q else -(exptDown 3000 q : ℤ)

/-- Round a rational to the nearest integer, ties to even, as IEEE-754
binary64 rounds significands. -/
def rnIntQ (q : ℚ) : ℤ :=
  if q - ⌊q⌋ < 1 / 2 then ⌊q⌋
  else if q - ⌊q⌋ > 1 / 2 then ⌊q⌋ + 1
  else if ⌊q⌋ % 2 = 0 then ⌊q⌋ else ⌊q⌋ + 1

/-- Round a rational to the nearest binary64 value (round to nearest,
ties to even; the overflow and subnormal ranges lie outside the exponent
fuel range and outside every use below). -/
def fl (q : ℚ) : ℚ :=
  if q = 0 then 0
  else (rnIntQ (q / pow2 (exptOf |q| - 52)) : ℚ) * pow2 (exptOf |q| - 52)

/-- Correctly rounded binary64 addition. -/
def fadd (a b : ℚ) : ℚ := fl (a + b)

/-- Correctly rounded binary64 multiplication. -/
def fmul (a b : ℚ) : ℚ := fl (a * b)

/-- weighted_mu_total with the f64 accumulation of common.rs lines 150-155
modelled by correctly rounded binary64 operations instead of exact
rationals: the same loop, total at i becoming total + count times mu with
each operation rounded. -/
def weighted_mu_total_fp (muElam : String → ℚ → ℚ) (comp : List (String × ℚ))
    (energies : List ℚ) : List ℚ :=
  comp.foldl
    (fun total sc => List.zipWith (fun t e => fadd t (fmul sc.2 (muElam sc.1 e))) total energies)
    (energies.map fun _ => 0)

/-- A mass-attenuation oracle exhibiting rounding asymmetry: 1 for Fe and
2 to the minus 53 for every other element. -/
def muCex : String → ℚ → ℚ := fun s _ => if s = "Fe" then 1 else 1 / 2 ^ 53

/-- Claim C4 counterexample: the same three-element composition map summed
in two iteration orders gives different binary64 curves: with Fe first,
each tiny term is absorbed into 1 by the round-to-even tie; with Fe last,
the tiny terms first combine to 2 to the minus 52, which 1 then represents
exactly. Two calls that build their own randomly seeded HashMaps can
therefore return different bits on identical inputs. -/
theorem weighted_mu_total_fp_order_cex :
    ([("Fe", (1 : ℚ)), ("Si", 1), ("O", 1)]).Perm [("Si", (1 : ℚ)), ("O", 1), ("Fe", 1)] ∧
      weighted_mu_total_fp muCex [("Fe", 1), ("Si", 1), ("O", 1)] [7000] ≠
        weighted_mu_total_fp muCex [("Si", 1), ("O", 1), ("Fe", 1)] [7000] := by
  constructor <;> decide

/-- The max-intensity selection of SampleInfo::new (common.rs lines
102-111): Iterator::max_by keeps the later element on ties, and the
partial_cmp fallback Equal acts as a tie. -/
def maxByIntensity : List (ℚ × ℚ) → Option (ℚ × ℚ)
  | [] => none
  | l :: rest => some (rest.foldl (fun acc y => if acc.2 > y.2 then acc else y) l)

/-- The fluorescence-energy step of SampleInfo::new (common.rs lines
102-111): NoEmissionLines fires exactly when the line map is empty, and
otherwise the max-intensity line energy is taken, whatever the sign of its
intensity. Lines are (energy, intensity) pairs. -/
def sample_fluor_energy (centralElement edge : String) (lines : List (ℚ × ℚ)) :
    Except SelfAbsError ℚ :=
  match maxByIntensity lines with
  | none => .error (.noEmissionLines (centralElement ++ " " ++ edge))
  | some l => .ok l.1

/-- The accumulation loop of weighted_fluorescence_mu (ameyanagi.rs lines
313-322): lines with non-positive (or non-finite) intensity are skipped,
the rest contribute intensity-weighted attenuation, energy and weight;
muAt is the compound-attenuation oracle at a line energy. -/
def flLoop (muAt : ℚ → ℚ) : List (ℚ × ℚ) → ℚ × ℚ × ℚ → ℚ × ℚ × ℚ
  | [], acc => acc
  | l :: rest, acc =>
    if l.2 ≤ 0 then flLoop muAt rest acc
    else flLoop muAt rest (acc.1 + l.2 * muAt l.1, acc.2.1 + l.2 * l.1, acc.2.2 + l.2)

/-- weighted_fluorescence_mu from ameyanagi.rs lines 301-331: fails with
NoEmissionLines exactly when the accumulated intensity weight is not
positive, and otherwise returns the weighted attenuation and energy. -/
def weighted_fluorescence_mu (muAt : ℚ → ℚ) (centralSymbol edge : String)
    (lines : List (ℚ × ℚ)) : Except SelfAbsError (ℚ × ℚ) :=
  if (flLoop muAt lines (0, 0, 0)).2.2 ≤ 0 then
    .error (.noEmissionLines
      (centralSymbol ++ " " ++ edge ++ " has no positive-intensity lines"))
  else
    .ok ((flLoop muAt lines (0, 0, 0)).1 / (flLoop muAt lines (0, 0, 0)).2.2,
      (flLoop muAt lines (0, 0, 0)).2.1 / (flLoop muAt lines (0, 0, 0)).2.2)

theorem flLoop_wsum (muAt : ℚ → ℚ) : ∀ (lines : List (ℚ × ℚ)) (acc : ℚ × ℚ × ℚ),
    (flLoop muAt lines acc).2.2 =
      acc.2.2 + ((lines.filter fun l => decide (0 < l.2)).map fun l => l.2).sum := by
  intro lines
  induction lines with
  | nil => intro acc; simp [flLoop]
  | cons l rest ih =>
    intro acc
    by_cases h : l.2 ≤ 0
    · have hd : ¬(0 < l.2) := not_lt.mpr h
      simp only [flLoop, if_pos h, List.filter_cons, hd, decide_eq_true_eq, if_neg,
        decide_eq_false hd]
      rw [ih]
      simp [hd]
    · have hd : 0 < l.2 := lt_of_not_le h
      simp only [flLoop, if_neg h, List.filter_cons]
      rw [ih]
      simp [hd]
      ring

/-- Claim C8 (amended): the profile-building fluorescence selection fails
with NoEmissionLines exactly when the absorber has no emission line at or
below the requested edge at all, and succeeds otherwise with a maximal
intensity line energy even when no intensity is positive; the
intensity-weighted variant used by the Ameyanagi and Booth-reference paths
fails with NoEmissionLines exactly when no line has positive intensity. -/
theorem no_emission_lines_conditions :
    (∀ (ce ed : String) (lines : List (ℚ × ℚ)),
      (∃ m, sample_fluor_energy ce ed lines = .error (.noEmissionLines m)) ↔ lines = []) ∧
    (∀ (ce ed : String) (lines : List (ℚ × ℚ)),
      lines ≠ [] → ∃ v, sample_fluor_energy ce ed lines = .ok v) ∧
    (∀ (muAt : ℚ → ℚ) (ce ed : String) (lines : List (ℚ × ℚ)),
      (∃ m, weighted_fluorescence_mu muAt ce ed lines = .error (.noEmissionLines m)) ↔
        ∀ l ∈ lines, l.2 ≤ 0) := by
  refine ⟨?_, ?_, ?_⟩
  · intro ce ed lines
    cases lines with
    | nil => simp [sample_fluor_energy, maxByIntensity]
    | cons l rest => simp [sample_fluor_energy, maxByIntensity]
  · intro ce ed lines hne
    cases lines with
    | nil => exact absurd rfl hne
    | cons l rest => exact ⟨_, rfl⟩
  · intro muAt ce ed lines
    constructor
    · rintro ⟨m, hm⟩ l hl
      by_contra hpos
      push_neg at hpos
      have hmem : l ∈ lines.filter fun a => decide (0 < a.2) :=
        List.mem_filter.mpr ⟨hl, by simpa using hpos⟩
      have hws : 0 < (flLoop muAt lines (0, 0, 0)).2.2 := by
        rw [flLoop_wsum]
        have hmap : l.2 ∈ (lines.filter fun a => decide (0 < a.2)).map fun a => a.2 :=
          List.mem_map_of_mem _ hmem
        have hsum : 0 < ((lines.filter fun a => decide (0 < a.2)).map fun a => a.2).sum := by
          apply List.sum_pos
          · intro x hx
            obtain ⟨a, ha, rfl⟩ := List.mem_map.mp hx
            have := (List.mem_filter.mp ha).2
            simpa using this
          · exact List.ne_nil_of_mem hmap
        simpa using hsum
      rw [weighted_fluorescence_mu, if_neg (not_le.mpr hws)] at hm
      exact absurd hm (by simp)
    · intro hall
      have hfil : (lines.filter fun a => decide (0 < a.2)) = [] := by
        rw [List.filter_eq_nil_iff]
        intro a ha
        simpa using not_lt.mpr (hall a ha)
      have hws : (flLoop muAt lines (0, 0, 0)).2.2 ≤ 0 := by
        rw [flLoop_wsum, hfil]
        simp
      exact ⟨_, by rw [weighted_fluorescence_mu, if_pos hws]⟩

/-- Claim C8 counterexample: a single emission line with zero intensity:
no line has positive intensity, yet profile construction succeeds with
that line energy instead of failing with NoEmissionLines. -/
theorem sample_fluor_zero_intensity_cex :
    sample_fluor_energy "Fe" "K" [(6400, 0)] = .ok 6400 ∧
      ∀ l ∈ ([((6400 : ℚ), (0 : ℚ))] : List (ℚ × ℚ)), l.2 ≤ 0 := by
  constructor
  · rfl
  · decide
